import Mathlib

/-!
Verification of the streaming event reconstruction core of a Streamlit
client for a remote coding agent (files `streamlit_app.py` and
`backend_client.py`).

The development shallowly embeds:
  * the batch decoder `process_events` over the live (stream-json) encoding,
  * the module-level live streaming loop (its per-event state update and its
    final flush),
  * the replay decoder `process_native_events` over the native JSONL encoding,
  * the background worker `stream_worker` feeding the queue, and
  * a small-step model of the producer/consumer/cancellation interaction.

Loosely-typed Python records are embedded as inductives covering exactly the
fields the source reads.  Fields read with `.get(k, "")` are embedded as plain
strings where `""` stands for an absent field; fields whose default differs
(`.get("name", "tool")`) are embedded as `Option String`; session-id fields are
plain strings because the source only ever tests them for truthiness, under
which `None` and `""` coincide.  Token counts are naturals with `0` standing
for an absent or zero field, matching the source's truthiness test.  The float
`cost_usd` is embedded as an optional rational, and Python's `f"{cost:.4f}"`
as round-half-to-even at four decimal places.
-/

/-- A finalized tool invocation record, as stored in `tool_blocks` entries of
the message dictionaries built by both decoders. -/
structure ToolBlock where
  name : String
  id : String
  input_str : String
  result : String
deriving DecidableEq

/-- One reconstructed conversation turn: the message dictionaries
`{"role", "content", "tool_blocks", "cost_info"}` built by the decoders. -/
structure Msg where
  role : String
  content : String
  tool_blocks : List ToolBlock
  cost_info : Option String
deriving DecidableEq

/-- The `content` field of a `tool_result` block: either a plain string or a
list of sub-blocks.  A list entry `some t` stands for a dict whose `"text"`
field is `t` (with `""` for an absent field); `none` stands for a non-dict
entry, which the source skips. -/
inductive RContent where
  | str (s : String)
  | blocks (items : List (Option String))
deriving DecidableEq

/-- Resolution of a `tool_result` content payload, shared by both decoders:
a string is taken verbatim; a list is resolved to the newline-join of the
`"text"` fields of its dict entries. -/
def resolve_result_content : RContent → String
  | RContent.str s => s
  | RContent.blocks items => String.intercalate "\n" (items.filterMap id)

/-- `add_session`: append a session id to the session list unless it is
falsy or already present. -/
def add_session (sid : String) (sessions : List String) : List String :=
  if sid ≠ "" ∧ sid ∉ sessions then sessions ++ [sid] else sessions

/-- `content_block` payload of an inner `content_block_start` event. -/
inductive CBlock where
  | text
  | toolUse (name : Option String) (id : Option String)
  | otherCB
deriving DecidableEq

/-- `delta` payload of an inner `content_block_delta` event. -/
inductive Delta where
  | textDelta (text : String)
  | inputJsonDelta (partial_json : String)
  | otherDelta
deriving DecidableEq

/-- InnerEv event wrapped by a `stream_event` record. -/
inductive InnerEv where
  | contentBlockStart (content_block : CBlock)
  | contentBlockDelta (delta : Delta)
  | otherInner
deriving DecidableEq

/-- A content block of an `assistant` or `user` message in the live
encoding. -/
inductive Block where
  | text (text : String)
  | toolResult (tool_use_id : String) (content : RContent)
  | otherBlock
deriving DecidableEq

/-- A raw event of the live (stream-json) encoding, covering the fields the
source reads for each discriminant. -/
inductive Event where
  | system (subtype : String) (session_id : String)
  | assistant (content : List Block)
  | user (content : List Block)
  | streamEvent (event : InnerEv)
  | result (session_id : String) (cost_usd : Option ℚ) (input_tokens output_tokens : Nat)
  | error (text : String)
  | stderr (text : String)
  | done
  | otherEvent
deriving DecidableEq

/-- Round the fraction `a / b` (with `b > 0`) to the nearest integer, ties to
even — the rounding Python `%.4f` applies.  `a.fdiv b` is the floor, and
`2 * (a - f * b)` compared with `b` classifies the fractional part against
one half. -/
def round_half_even_div (a b : ℤ) : ℤ :=
  let f := a.fdiv b
  let r2 := 2 * (a - f * b)
  if r2 < b then f else if b < r2 then f + 1 else if f % 2 = 0 then f else f + 1

/-- Left-pad the decimal rendering of a natural to four digits. -/
def pad4 (n : Nat) : String :=
  let s := toString n
  String.mk (List.replicate (4 - s.length) '0') ++ s

/-- Embedding of Python's `f"{c:.4f}"` on the (rational model of the) cost:
the cost scaled by `10000` is rounded half-to-even and rendered with four
decimal digits. -/
def fmt4 (c : ℚ) : String :=
  let scaled := round_half_even_div (c.num * 10000) (c.den : ℤ)
  let n := scaled.natAbs
  let core := toString (n / 10000) ++ "." ++ pad4 (n % 10000)
  if scaled < 0 then "-" ++ core else core

/-- The `cost_parts` list built from a `result` event: the formatted cost when
present, then `in:`/`out:` token counts when truthy.  The identical code
appears in `process_events` and in the module-level streaming loop. -/
def cost_parts_of (cost_usd : Option ℚ) (input_tokens output_tokens : Nat) : List String :=
  let parts : List String := []
  let parts := match cost_usd with
    | some c => parts ++ ["$" ++ fmt4 c]
    | none => parts
  let parts := if input_tokens ≠ 0 then parts ++ ["in:" ++ toString input_tokens] else parts
  if output_tokens ≠ 0 then parts ++ ["out:" ++ toString output_tokens] else parts

/-- `" | ".join(cost_parts) if cost_parts else None`. -/
def cost_info_of (cost_usd : Option ℚ) (input_tokens output_tokens : Nat) : Option String :=
  if cost_parts_of cost_usd input_tokens output_tokens ≠ [] then
    some (String.intercalate " | " (cost_parts_of cost_usd input_tokens output_tokens))
  else none

/-- Accumulator state of `process_events`, together with the ambient session
bookkeeping (`st.session_state.sessions` / `.session_id`) it mutates. -/
structure PState where
  messages : List Msg
  current_text : String
  current_tools : List ToolBlock
  pending_tool : Option ToolBlock
  sessions : List String
  session_id : String
deriving DecidableEq

/-- Per-block update of the `user` branch of `process_events`: each
`tool_result` block attaches its resolved content to the pending tool and
flushes it, or — with nothing pending — synthesizes a `"tool"`-named record
carrying only the result. -/
def user_blocks_fold (acc : Option ToolBlock × List ToolBlock) (b : Block) :
    Option ToolBlock × List ToolBlock :=
  match b with
  | Block.toolResult _ rc =>
      let content := resolve_result_content rc
      match acc.1 with
      | some pt => (none, acc.2 ++ [{ pt with result := content }])
      | none => (none, acc.2 ++ [⟨"tool", "", "", content⟩])
  | _ => acc

/-- The `stream_event` branch of `process_events`: a `tool_use`
`content_block_start` flushes any pending tool and opens a new one; a
`text_delta` appends to the text buffer; an `input_json_delta` appends to the
pending tool's argument buffer when one exists and is otherwise ignored. -/
def stream_inner_step (st : PState) (inner : InnerEv) : PState :=
  match inner with
  | InnerEv.contentBlockStart cb =>
      match cb with
      | CBlock.toolUse nm tid =>
          let tools := match st.pending_tool with
            | some pt => st.current_tools ++ [pt]
            | none => st.current_tools
          { st with current_tools := tools,
                    pending_tool := some ⟨nm.getD "tool", tid.getD "", "", ""⟩ }
      | _ => st
  | InnerEv.contentBlockDelta d =>
      match d with
      | Delta.textDelta t => { st with current_text := st.current_text ++ t }
      | Delta.inputJsonDelta pj =>
          match st.pending_tool with
          | some pt => { st with pending_tool := some { pt with input_str := pt.input_str ++ pj } }
          | none => st
      | Delta.otherDelta => st
  | InnerEv.otherInner => st

/-- One iteration of the event loop of `process_events`. -/
def process_events_step (st : PState) (ev : Event) : PState :=
  match ev with
  | Event.system subtype sid =>
      if subtype = "init" ∧ sid ≠ "" then
        { st with sessions := add_session sid st.sessions, session_id := sid }
      else st
  | Event.assistant blocks =>
      { st with current_text := blocks.foldl (fun t b => match b with
          | Block.text s => t ++ s
          | _ => t) st.current_text }
  | Event.user blocks =>
      let r := blocks.foldl user_blocks_fold (st.pending_tool, st.current_tools)
      { st with pending_tool := r.1, current_tools := r.2 }
  | Event.streamEvent inner => stream_inner_step st inner
  | Event.result sid cost it ot =>
      let st := if sid ≠ "" then
        { st with sessions := add_session sid st.sessions, session_id := sid } else st
      let st := match st.pending_tool with
        | some pt => { st with current_tools := st.current_tools ++ [pt], pending_tool := none }
        | none => st
      if st.current_text ≠ "" ∨ st.current_tools ≠ [] then
        { st with
            messages := st.messages ++
              [⟨"assistant", st.current_text, st.current_tools, cost_info_of cost it ot⟩],
            current_text := "", current_tools := [] }
      else st
  | Event.error t | Event.stderr t =>
      if t ≠ "" then
        { st with messages := st.messages ++ [⟨"system", "⚠️ " ++ t, [], none⟩] }
      else st
  | Event.done =>
      let st := match st.pending_tool with
        | some pt => { st with current_tools := st.current_tools ++ [pt], pending_tool := none }
        | none => st
      if st.current_text ≠ "" ∨ st.current_tools ≠ [] then
        { st with messages := st.messages ++
            [⟨"assistant", st.current_text, st.current_tools, none⟩] }
      else st
  | Event.otherEvent => st

/-- The trailing flush of `process_events`, run after the event loop: flush a
pending tool and emit a final assistant turn when the buffers are non-empty.
Faithfully, the `done` branch above performs the same emission but does not
reset the buffers, so this flush can re-emit their content. -/
def flush_final (st : PState) : PState :=
  let st := match st.pending_tool with
    | some pt => { st with current_tools := st.current_tools ++ [pt], pending_tool := none }
    | none => st
  if st.current_text ≠ "" ∨ st.current_tools ≠ [] then
    { st with messages := st.messages ++
        [⟨"assistant", st.current_text, st.current_tools, none⟩] }
  else st

/-- The state `process_events` starts from. -/
def initial_pstate : PState := ⟨[], "", [], none, [], ""⟩

/-- `process_events`: fold the raw event list and flush, returning the
message list. -/
def process_events (events : List Event) : List Msg :=
  (flush_final (events.foldl process_events_step initial_pstate)).messages

/-- Accumulator state of the module-level live streaming loop
(`accumulated_text` / `accumulated_tools` / `pending_tool` / `cost_info`),
together with the ambient session bookkeeping it mutates. -/
structure LState where
  accumulated_text : String
  accumulated_tools : List ToolBlock
  pending_tool : Option ToolBlock
  cost_info : Option String
  sessions : List String
  session_id : String
deriving DecidableEq

/-- Per-block update of the `user` branch of the live streaming loop: a
`tool_result` block attaches its resolved content to the pending tool and
flushes it; with nothing pending the branch has no `else` arm and the block
is ignored. -/
def live_user_fold (acc : Option ToolBlock × List ToolBlock) (b : Block) :
    Option ToolBlock × List ToolBlock :=
  match b with
  | Block.toolResult _ rc =>
      match acc.1 with
      | some pt => (none, acc.2 ++ [{ pt with result := resolve_result_content rc }])
      | none => acc
  | _ => acc

/-- The `stream_event` branch of the live streaming loop (identical logic to
the one in `process_events`, acting on the loop's accumulator variables). -/
def live_inner_step (st : LState) (inner : InnerEv) : LState :=
  match inner with
  | InnerEv.contentBlockStart cb =>
      match cb with
      | CBlock.toolUse nm tid =>
          let tools := match st.pending_tool with
            | some pt => st.accumulated_tools ++ [pt]
            | none => st.accumulated_tools
          { st with accumulated_tools := tools,
                    pending_tool := some ⟨nm.getD "tool", tid.getD "", "", ""⟩ }
      | _ => st
  | InnerEv.contentBlockDelta d =>
      match d with
      | Delta.textDelta t => { st with accumulated_text := st.accumulated_text ++ t }
      | Delta.inputJsonDelta pj =>
          match st.pending_tool with
          | some pt => { st with pending_tool := some { pt with input_str := pt.input_str ++ pj } }
          | none => st
      | Delta.otherDelta => st
  | InnerEv.otherInner => st

/-- One per-event state update of the live streaming loop's batch body.
Renders aside, the differences to `process_events_step` are: an `assistant`
event assigns each text block's text to `accumulated_text` (replacement, not
concatenation); an orphan `tool_result` is ignored; a `result` event only
records `cost_info` when the parts list is non-empty and emits nothing;
`error` / `stderr` are rendered but recorded nowhere; `done` only affects the
loop control, which is modelled separately. -/
def live_step (st : LState) (ev : Event) : LState :=
  match ev with
  | Event.system subtype sid =>
      if subtype = "init" ∧ sid ≠ "" then
        { st with sessions := add_session sid st.sessions, session_id := sid }
      else st
  | Event.streamEvent inner => live_inner_step st inner
  | Event.assistant blocks =>
      { st with accumulated_text := blocks.foldl (fun t b => match b with
          | Block.text s => s
          | _ => t) st.accumulated_text }
  | Event.user blocks =>
      let r := blocks.foldl live_user_fold (st.pending_tool, st.accumulated_tools)
      { st with pending_tool := r.1, accumulated_tools := r.2 }
  | Event.result sid cost it ot =>
      let st := if sid ≠ "" then
        { st with sessions := add_session sid st.sessions, session_id := sid } else st
      match cost_info_of cost it ot with
      | some s => { st with cost_info := some s }
      | none => st
  | Event.error _ | Event.stderr _ => st
  | Event.done => st
  | Event.otherEvent => st

/-- The state the live streaming loop starts from. -/
def initial_lstate : LState := ⟨"", [], none, none, [], ""⟩

/-- The post-loop code of the live streaming loop: flush a pending tool into
the tool list and append one assistant message — unconditionally, even when
text, tools and cost are all empty. -/
def finalize_live (st : LState) : Msg :=
  let tools := match st.pending_tool with
    | some pt => st.accumulated_tools ++ [pt]
    | none => st.accumulated_tools
  ⟨"assistant", st.accumulated_text, tools, st.cost_info⟩

/-- A content block of the native (replay) JSONL encoding.  For `tool_use`
blocks, `input_str` models `json.dumps(block.get("input", {}))`, the dumped
argument object (so an absent `input` is the string rendering of the empty
object). -/
inductive NBlock where
  | text (text : String)
  | toolUse (name : Option String) (id : String) (input_str : String)
  | toolResult (tool_use_id : String) (content : RContent)
  | otherNBlock
deriving DecidableEq

/-- The `message.content` of a native `user` record: a plain string (an
actual user input) or a list of blocks. -/
inductive NContent where
  | str (s : String)
  | blocks (blocks : List NBlock)
deriving DecidableEq

/-- A record of the native (replay) encoding: `type`, `sessionId` and the
`message.content` fields the source reads.  `otherNEvent` covers
`queue-operation` and any other ignored record type. -/
inductive NEvent where
  | user (sessionId : String) (content : NContent)
  | assistant (sessionId : String) (content : List NBlock)
  | otherNEvent (sessionId : String)
deriving DecidableEq

/-- Accumulator state of `process_native_events`: the output list, the
`pending_tool_results` id→result dict and the ambient session list. -/
structure NState where
  messages : List Msg
  pending_tool_results : List (String × String)
  sessions : List String
deriving DecidableEq

/-- Python's `str.strip()`: drop whitespace from both ends (structural
embedding over the character list). -/
def py_strip (s : String) : String :=
  String.mk (((s.data.dropWhile Char.isWhitespace).reverse.dropWhile Char.isWhitespace).reverse)

/-- Assignment `d[k] = v` on the insertion-ordered dict model: replace the
value in place when the key is present, append otherwise. -/
def dict_insert : List (String × String) → String → String → List (String × String)
  | [], k, v => [(k, v)]
  | (k0, v0) :: rest, k, v =>
      if k0 = k then (k0, v) :: rest else (k0, v0) :: dict_insert rest k v

/-- `d.pop(k, "")` on the dict model: the stored value (or `""`) together
with the dict with the entry removed. -/
def dict_pop : List (String × String) → String → String × List (String × String)
  | [], _ => ("", [])
  | (k0, v0) :: rest, k =>
      if k0 = k then (v0, rest)
      else
        let r := dict_pop rest k
        (r.1, (k0, v0) :: r.2)

/-- The native `user` branch over a block list: each `tool_result` block
stores its resolved content into the id→result dict. -/
def native_user_blocks (m : List (String × String)) (bs : List NBlock) :
    List (String × String) :=
  bs.foldl (fun acc b => match b with
    | NBlock.toolResult tid rc => dict_insert acc tid (resolve_result_content rc)
    | _ => acc) m

/-- Accumulator of the native `assistant` branch: the record's text, its tool
blocks, and the id→result dict being consumed. -/
structure AsstAcc where
  text : String
  tool_blocks : List ToolBlock
  results : List (String × String)
deriving DecidableEq

/-- The native `assistant` branch over a block list: `text` blocks
concatenate; each `tool_use` block becomes a `ToolBlock` whose result is
popped (looked up and removed) from the id→result dict, defaulting to `""`. -/
def native_asst_blocks (acc : AsstAcc) (bs : List NBlock) : AsstAcc :=
  bs.foldl (fun a b => match b with
    | NBlock.text t => { a with text := a.text ++ t }
    | NBlock.toolUse nm tid inp =>
        let r := dict_pop a.results tid
        { a with tool_blocks := a.tool_blocks ++ [⟨nm.getD "tool", tid, inp, r.1⟩],
                 results := r.2 }
    | _ => a) acc

/-- One iteration of the record loop of `process_native_events`. -/
def native_step (st : NState) (ev : NEvent) : NState :=
  let sid := match ev with
    | NEvent.user s _ => s
    | NEvent.assistant s _ => s
    | NEvent.otherNEvent s => s
  let st := { st with sessions := add_session sid st.sessions }
  match ev with
  | NEvent.user _ (NContent.str s) =>
      if py_strip s ≠ "" then { st with messages := st.messages ++ [⟨"user", s, [], none⟩] }
      else st
  | NEvent.user _ (NContent.blocks bs) =>
      { st with pending_tool_results := native_user_blocks st.pending_tool_results bs }
  | NEvent.assistant _ bs =>
      let a := native_asst_blocks ⟨"", [], st.pending_tool_results⟩ bs
      let st := { st with pending_tool_results := a.results }
      if a.text ≠ "" ∨ a.tool_blocks ≠ [] then
        { st with messages := st.messages ++ [⟨"assistant", a.text, a.tool_blocks, none⟩] }
      else st
  | NEvent.otherNEvent _ => st

/-- The post-loop fallback of `process_native_events`: results left unclaimed
in the dict are appended, in insertion order, as `"tool"`-named blocks onto
the last message when it is an assistant message. -/
def native_finalize (st : NState) : List Msg :=
  if st.pending_tool_results ≠ [] ∧ st.messages ≠ [] then
    let last := st.messages.getLastD ⟨"", "", [], none⟩
    if last.role = "assistant" then
      st.messages.dropLast ++
        [{ last with tool_blocks := last.tool_blocks ++
            st.pending_tool_results.map (fun p => ⟨"tool", p.1, "", p.2⟩) }]
    else st.messages
  else st.messages

/-- `process_native_events`: fold the native record list and apply the
unclaimed-result fallback. -/
def process_native_events (events : List NEvent) : List Msg :=
  native_finalize (events.foldl native_step ⟨[], [], []⟩)

/-- A value carried by the producer/consumer queue: either a raw event or the
end-of-stream sentinel (`None` in the source), a value distinct from every
raw event by construction. -/
inductive QItem where
  | ev (e : Event)
  | sentinel
deriving DecidableEq

/-- The sequence of queue puts performed by `stream_worker`.  `evs` is the
list of events the SSE generator yields before it either ends (`err = none`)
or raises an exception with message `err`; `stopAt = some k` means the
`stop_event` flag is observed set from the `k`-th per-event check onward (the
flag is only ever set, never cleared).  An exception is converted into a
synthetic `error` event followed by the sentinel; a stop or a clean end puts
just the sentinel. -/
def stream_worker_puts : List Event → Option String → Option Nat → List QItem
  | [], err, _ =>
      (match err with
        | some m => [QItem.ev (Event.error m)]
        | none => []) ++ [QItem.sentinel]
  | e :: rest, err, stopAt =>
      match stopAt with
      | some 0 => [QItem.sentinel]
      | some (k + 1) => QItem.ev e :: stream_worker_puts rest err (some k)
      | none => QItem.ev e :: stream_worker_puts rest err none

/-- Drain one batch, mirroring the live loop's inner `for ev in batch` body:
apply `live_step` to each event in order; the sentinel or a `done` event sets
the loop's `done` flag and breaks, dropping the rest of the batch.  Returns
the new accumulator state, the events actually processed, and the `done`
flag. -/
def drain_batch : LState → List QItem → LState × List Event × Bool
  | st, [] => (st, [], false)
  | st, QItem.sentinel :: _ => (st, [], true)
  | st, QItem.ev e :: rest =>
      if e = Event.done then (st, [e], true)
      else
        let r := drain_batch (live_step st e) rest
        (r.1, e :: r.2.1, r.2.2)

/-- Global state of the two execution contexts of one streaming job: the
worker (producer) side — `pending` events not yet read from the transport,
the `stop_event` flag, whether the worker has finished — the FIFO `queue`,
and the consumer side — the `cancel_requested` flag, the events drained and
processed so far, the loop accumulator, and whether the consumer loop has
exited. -/
structure Sys where
  pending : List Event
  stopped : Bool
  workerDone : Bool
  queue : List QItem
  cancel : Bool
  consumed : List Event
  lstate : LState
  loopDone : Bool
deriving DecidableEq

/-- Interleaving actions: the worker forwards one event (or, when stopped or
exhausted, puts the sentinel and finishes); the user sets the cancellation
flag; the consumer runs one iteration of its polling loop (cancellation check
first, then drain and process the whole queue — an empty queue is the sleep
iteration). -/
inductive Act where
  | produce
  | setCancel
  | consume
deriving DecidableEq

/-- One interleaving step of the producer/consumer system. -/
def sys_step (s : Sys) : Act → Sys
  | Act.produce =>
      if s.workerDone then s
      else
        match s.pending with
        | [] => { s with queue := s.queue ++ [QItem.sentinel], workerDone := true }
        | e :: rest =>
            if s.stopped then { s with queue := s.queue ++ [QItem.sentinel], workerDone := true }
            else { s with queue := s.queue ++ [QItem.ev e], pending := rest }
  | Act.setCancel => { s with cancel := true }
  | Act.consume =>
      if s.loopDone then s
      else if s.cancel then { s with stopped := true, loopDone := true }
      else
        let r := drain_batch s.lstate s.queue
        { s with queue := [], lstate := r.1,
                 consumed := s.consumed ++ r.2.1, loopDone := r.2.2 }

/-- The initial system state for a job whose transport will deliver `es`. -/
def sys_init (es : List Event) : Sys :=
  ⟨es, false, false, [], false, [], initial_lstate, false⟩

/-- Run an interleaving. -/
def sys_run (es : List Event) (acts : List Act) : Sys :=
  acts.foldl sys_step (sys_init es)

/-- The cost value 0.01 USD (one cent), written in reduced form. -/
def usd_cent : ℚ := ⟨1, 100, by decide, by decide⟩

/-- Concatenation of a list of strings (right fold, so that it unfolds one
string at a time). -/
def concat_strings (l : List String) : String := l.foldr (· ++ ·) ""

/-- The texts of the `"text"` content blocks of a live-encoding message, in
order. -/
def block_texts (bs : List Block) : List String :=
  bs.filterMap fun b => match b with
    | Block.text t => some t
    | _ => none

/-- The `assistant` branch of `process_events` concatenates: folding the
text blocks appends their joined texts to the initial buffer. -/
theorem assistant_concat_foldl (bs : List Block) (t0 : String) :
    bs.foldl (fun t b => match b with
      | Block.text s => t ++ s
      | _ => t) t0 = t0 ++ concat_strings (block_texts bs) := by
  induction bs generalizing t0 with
  | nil => simp [concat_strings, block_texts]
  | cons b rest ih =>
      cases b <;> simp [block_texts, concat_strings, ih, String.append_assoc]

/-- The `assistant` branch of the live streaming loop replaces: folding the
text blocks leaves the last text block's text, or the initial buffer when
there is none. -/
theorem assistant_replace_foldl (bs : List Block) (t0 : String) :
    bs.foldl (fun t b => match b with
      | Block.text s => s
      | _ => t) t0 = (block_texts bs).getLastD t0 := by
  induction bs generalizing t0 with
  | nil => simp [block_texts]
  | cons b rest ih =>
      rw [List.foldl_cons]
      cases b with
      | text s =>
          rw [ih]
          simp only [block_texts, List.filterMap_cons]
          rw [List.getLastD_cons]
      | toolResult a c => rw [ih]; simp [block_texts]
      | otherBlock => rw [ih]; simp [block_texts]

/-- C1: evaluation of `process_events` at the failing input
`[text_delta "hi", done]`.  The `done` branch emits a turn but does not reset
the buffers, so the trailing catch-all flush emits the same accumulated text a
second time: the fragment `"hi"` appears twice in the output, refuting the
exactly-once completeness the claim states (the claim's own text requires the
trailing flush only "in the last case", when no `done` was seen). -/
theorem process_events_done_duplication :
    process_events [Event.streamEvent (InnerEv.contentBlockDelta (Delta.textDelta "hi")), Event.done]
      = [⟨"assistant", "hi", [], none⟩, ⟨"assistant", "hi", [], none⟩] := by decide

/-- C2: the single-exchange boundary sequence `[tool_use start(name=A,id=1),
input_json_delta, tool_result "ok", result(cost=0.01)]` yields exactly one
assistant turn with exactly that tool call and usage `"$0.0100"`; and in
general the usage summary is the `" | "`-join of the cost formatted to four
decimals, `in:` tokens and `out:` tokens, omitting absent (falsy) components,
and is `None` when all are absent. -/
theorem boundary_exchange_and_usage_format :
    process_events
      [Event.streamEvent (InnerEv.contentBlockStart (CBlock.toolUse (some "A") (some "1"))),
       Event.streamEvent (InnerEv.contentBlockDelta (Delta.inputJsonDelta "\x7b\"x\":1\x7d")),
       Event.user [Block.toolResult "1" (RContent.str "ok")],
       Event.result "" (some usd_cent) 0 0]
      = [⟨"assistant", "", [⟨"A", "1", "\x7b\"x\":1\x7d", "ok"⟩], some "$0.0100"⟩]
    ∧ (∀ (c : ℚ) (i o : Nat), i ≠ 0 → o ≠ 0 →
        cost_info_of (some c) i o =
          some (String.intercalate " | "
            ["$" ++ fmt4 c, "in:" ++ toString i, "out:" ++ toString o]))
    ∧ (∀ c : ℚ, cost_info_of (some c) 0 0 = some ("$" ++ fmt4 c))
    ∧ (∀ o : Nat, o ≠ 0 → cost_info_of none 0 o = some ("out:" ++ toString o))
    ∧ cost_info_of none 0 0 = none := by
  refine ⟨by decide, ?_, ?_, ?_, by decide⟩
  · intro c i o hi ho
    simp [cost_info_of, cost_parts_of, hi, ho]
  · intro c
    simp [cost_info_of, cost_parts_of]
    rfl
  · intro o ho
    simp [cost_info_of, cost_parts_of, ho]
    rfl

/-- Witness for C2 at cost 0.01, 3 input tokens, 5 output tokens. -/
theorem boundary_exchange_and_usage_format_witness :
    (3 : Nat) ≠ 0 ∧ (5 : Nat) ≠ 0 ∧
    cost_info_of (some usd_cent) 3 5 =
      some (String.intercalate " | "
        ["$" ++ fmt4 usd_cent, "in:" ++ toString (3 : Nat), "out:" ++ toString (5 : Nat)]) :=
  ⟨by decide, by decide,
    boundary_exchange_and_usage_format.2.1 usd_cent 3 5 (by decide) (by decide)⟩

/-- C4: in both the batch decoder and the live streaming loop, a `tool_use`
`content_block_start` arriving while a tool call is pending first flushes the
pending record, exactly as accumulated, into the finished tool list and then
installs the new pending record with empty buffers; two consecutive
`tool_use` starts with no intervening result therefore yield two tool calls,
the first with empty result. -/
theorem tool_use_start_flushes_pending :
    (∀ (st : PState) (p : ToolBlock) (nm tid : Option String),
       st.pending_tool = some p →
       (process_events_step st (Event.streamEvent (InnerEv.contentBlockStart (CBlock.toolUse nm tid)))).current_tools
           = st.current_tools ++ [p]
       ∧ (process_events_step st (Event.streamEvent (InnerEv.contentBlockStart (CBlock.toolUse nm tid)))).pending_tool
           = some ⟨nm.getD "tool", tid.getD "", "", ""⟩)
    ∧ (∀ (ls : LState) (p : ToolBlock) (nm tid : Option String),
       ls.pending_tool = some p →
       (live_step ls (Event.streamEvent (InnerEv.contentBlockStart (CBlock.toolUse nm tid)))).accumulated_tools
           = ls.accumulated_tools ++ [p]
       ∧ (live_step ls (Event.streamEvent (InnerEv.contentBlockStart (CBlock.toolUse nm tid)))).pending_tool
           = some ⟨nm.getD "tool", tid.getD "", "", ""⟩)
    ∧ process_events
        [Event.streamEvent (InnerEv.contentBlockStart (CBlock.toolUse (some "A") (some "1"))),
         Event.streamEvent (InnerEv.contentBlockStart (CBlock.toolUse (some "B") (some "2")))]
        = [⟨"assistant", "", [⟨"A", "1", "", ""⟩, ⟨"B", "2", "", ""⟩], none⟩] := by
  refine ⟨?_, ?_, by decide⟩
  · intro st p nm tid h
    constructor <;> simp [process_events_step, stream_inner_step, h]
  · intro ls p nm tid h
    constructor <;> simp [live_step, live_inner_step, h]

/-- Witness for C4: a concrete state with the pending tool `A` receiving a
new `tool_use` start for `B`. -/
theorem tool_use_start_flushes_pending_witness :
    (PState.mk [] "" [] (some ⟨"A", "1", "x", ""⟩) [] "").pending_tool = some ⟨"A", "1", "x", ""⟩
    ∧ (process_events_step (PState.mk [] "" [] (some ⟨"A", "1", "x", ""⟩) [] "")
          (Event.streamEvent (InnerEv.contentBlockStart (CBlock.toolUse (some "B") (some "2"))))).current_tools
        = [] ++ [⟨"A", "1", "x", ""⟩]
    ∧ (process_events_step (PState.mk [] "" [] (some ⟨"A", "1", "x", ""⟩) [] "")
          (Event.streamEvent (InnerEv.contentBlockStart (CBlock.toolUse (some "B") (some "2"))))).pending_tool
        = some ⟨"B", "2", "", ""⟩ := by
  have h := tool_use_start_flushes_pending.1
    (PState.mk [] "" [] (some ⟨"A", "1", "x", ""⟩) [] "")
    ⟨"A", "1", "x", ""⟩ (some "B") (some "2") rfl
  exact ⟨rfl, h.1, h.2⟩

/-- C5 counterexample: the tool call `process_events` synthesizes for an
orphan `tool_result` has name `"tool"`, not the empty name the claim
states. -/
theorem orphan_result_name_counterexample :
    process_events [Event.user [Block.toolResult "x" (RContent.str "ok")]]
      = [⟨"assistant", "", [⟨"tool", "", "", "ok"⟩], none⟩]
    ∧ ("tool" : String) ≠ "" := by decide

/-- C5 (amended): in `process_events`, a `tool_result` block arriving with no
pending tool appends a placeholder tool call named `"tool"` with empty id and
arguments carrying only the resolved result (and emits no turn); in the
module-level live streaming loop, whose `user` branch has no fallback arm,
such an orphan result leaves the state unchanged — the result is dropped.
No path raises an exception (both updates are total functions). -/
theorem orphan_result_fallback :
    (∀ (st : PState) (tid : String) (rc : RContent),
       st.pending_tool = none →
       (process_events_step st (Event.user [Block.toolResult tid rc])).current_tools
           = st.current_tools ++ [⟨"tool", "", "", resolve_result_content rc⟩]
       ∧ (process_events_step st (Event.user [Block.toolResult tid rc])).messages = st.messages
       ∧ (process_events_step st (Event.user [Block.toolResult tid rc])).pending_tool = none)
    ∧ (∀ (ls : LState) (tid : String) (rc : RContent),
       ls.pending_tool = none →
       live_step ls (Event.user [Block.toolResult tid rc]) = ls) := by
  constructor
  · intro st tid rc h
    refine ⟨?_, ?_, ?_⟩ <;> simp [process_events_step, user_blocks_fold, h]
  · intro ls tid rc h
    simp [live_step, live_user_fold, h]
    cases ls
    simp_all

/-- Witness for C5: a concrete orphan `tool_result` against the empty
decoder state. -/
theorem orphan_result_fallback_witness :
    initial_pstate.pending_tool = none
    ∧ (process_events_step initial_pstate (Event.user [Block.toolResult "x" (RContent.str "ok")])).current_tools
        = [] ++ [⟨"tool", "", "", resolve_result_content (RContent.str "ok")⟩]
    ∧ initial_lstate.pending_tool = none
    ∧ live_step initial_lstate (Event.user [Block.toolResult "x" (RContent.str "ok")]) = initial_lstate := by
  have h1 := orphan_result_fallback.1 initial_pstate "x" (RContent.str "ok") rfl
  have h2 := orphan_result_fallback.2 initial_lstate "x" (RContent.str "ok") rfl
  exact ⟨rfl, h1.1, rfl, h2⟩

/-- C7 counterexample: in the live streaming loop an `assistant` event
replaces the accumulated text instead of appending to it. -/
theorem assistant_replaces_counterexample :
    (live_step ⟨"AB", [], none, none, [], ""⟩ (Event.assistant [Block.text "C"])).accumulated_text = "C"
    ∧ "C" ≠ "AB" ++ "C" := by decide

/-- C7 (amended): in `process_events` an `assistant` event appends the
concatenation of its text blocks' texts to the text buffer (preserving prior
text) and emits no turn; in the module-level live streaming loop the same
event instead assigns each text block's text, leaving the last text block's
text (or the previous buffer when the event has no text block). -/
theorem assistant_text_accumulation :
    (∀ (st : PState) (bs : List Block),
       (process_events_step st (Event.assistant bs)).current_text
           = st.current_text ++ concat_strings (block_texts bs)
       ∧ (process_events_step st (Event.assistant bs)).messages = st.messages)
    ∧ (∀ (ls : LState) (bs : List Block),
       (live_step ls (Event.assistant bs)).accumulated_text
           = (block_texts bs).getLastD ls.accumulated_text) := by
  refine ⟨fun st bs => ⟨?_, ?_⟩, fun ls bs => ?_⟩
  · simp [process_events_step, assistant_concat_foldl]
  · simp [process_events_step]
  · simp [live_step, assistant_replace_foldl]

/-- C8: `stream_worker` containment.  The sentinel is distinct from every
raw-event item by construction; every execution of the worker — for any
yielded event list, any exception outcome, and any point at which the stop
flag is observed — enqueues the sentinel exactly once, as its last put; and
when the stream raises with message `m` (and no stop intervenes) the worker
enqueues exactly the forwarded events, then a synthetic `error` event
carrying `m`, then the sentinel.  No exception crosses the boundary: the
enqueue sequence is a total function of the stream outcome. -/
theorem stream_worker_error_containment :
    (∀ (e : Event), QItem.ev e ≠ QItem.sentinel)
    ∧ (∀ (evs : List Event) (err : Option String) (stopAt : Option Nat),
       ∃ pre, stream_worker_puts evs err stopAt = pre ++ [QItem.sentinel]
         ∧ QItem.sentinel ∉ pre)
    ∧ (∀ (evs : List Event) (m : String),
       stream_worker_puts evs (some m) none
         = evs.map QItem.ev ++ [QItem.ev (Event.error m), QItem.sentinel]) := by
  refine ⟨fun e => by simp, ?_, ?_⟩
  · intro evs err stopAt
    induction evs generalizing stopAt with
    | nil =>
        cases err with
        | some m => exact ⟨[QItem.ev (Event.error m)], rfl, by simp⟩
        | none => exact ⟨[], rfl, by simp⟩
    | cons e rest ih =>
        cases stopAt with
        | none =>
            obtain ⟨pre, hpre, hmem⟩ := ih none
            exact ⟨QItem.ev e :: pre, by simp [stream_worker_puts, hpre], by simp [hmem]⟩
        | some k =>
            cases k with
            | zero => exact ⟨[], rfl, by simp⟩
            | succ k =>
                obtain ⟨pre, hpre, hmem⟩ := ih (some k)
                exact ⟨QItem.ev e :: pre, by simp [stream_worker_puts, hpre], by simp [hmem]⟩
  · intro evs m
    induction evs with
    | nil => rfl
    | cons e rest ih => simp [stream_worker_puts, ih]

/-- A turn is non-empty: non-empty text or a non-empty tool list (the
condition the source tests with `if current_text or current_tools`). -/
def msg_nonempty (m : Msg) : Prop := m.content ≠ "" ∨ m.tool_blocks ≠ []

/-- The warning marker prepended by the `error`/`stderr` branch makes the
text non-empty whatever the event text. -/
theorem warn_prefix_ne_empty (t : String) : "⚠️ " ++ t ≠ "" := by
  intro h
  have h2 := congrArg String.data h
  simp [String.data_append] at h2

/-- A string whose strip is non-empty is non-empty. -/
theorem py_strip_ne_empty_of (s : String) (h : py_strip s ≠ "") : s ≠ "" := by
  intro he
  exact h (by rw [he]; rfl)

/-- `stream_event` processing never touches the output message list. -/
theorem stream_inner_step_messages (st : PState) (inner : InnerEv) :
    (stream_inner_step st inner).messages = st.messages := by
  cases inner with
  | contentBlockStart cb => cases cb <;> rfl
  | contentBlockDelta d =>
      cases d with
      | textDelta t => rfl
      | inputJsonDelta pj =>
          simp only [stream_inner_step]
          split <;> rfl
      | otherDelta => rfl
  | otherInner => rfl

/-- Each `process_events` iteration either leaves the message list unchanged
or appends exactly one non-empty message. -/
theorem process_events_step_messages_shape (st : PState) (ev : Event) :
    (process_events_step st ev).messages = st.messages
    ∨ ∃ m, msg_nonempty m ∧ (process_events_step st ev).messages = st.messages ++ [m] := by
  cases ev with
  | system sub sid =>
      simp only [process_events_step]
      split <;> exact Or.inl rfl
  | assistant bs => exact Or.inl rfl
  | user bs => exact Or.inl rfl
  | streamEvent inner => exact Or.inl (stream_inner_step_messages st inner)
  | result sid cost it ot =>
      simp only [process_events_step]
      split <;> split <;> split <;>
        first
        | exact Or.inl rfl
        | exact Or.inr ⟨_, by simp_all [msg_nonempty], rfl⟩
  | error t =>
      simp only [process_events_step]
      split
      · exact Or.inr ⟨_, Or.inl (warn_prefix_ne_empty t), rfl⟩
      · exact Or.inl rfl
  | stderr t =>
      simp only [process_events_step]
      split
      · exact Or.inr ⟨_, Or.inl (warn_prefix_ne_empty t), rfl⟩
      · exact Or.inl rfl
  | done =>
      simp only [process_events_step]
      split <;> split <;>
        first
        | exact Or.inl rfl
        | exact Or.inr ⟨_, by simp_all [msg_nonempty], rfl⟩
  | otherEvent => exact Or.inl rfl

/-- One `process_events` iteration preserves the all-messages-non-empty
invariant. -/
theorem process_events_step_nonempty (st : PState) (ev : Event)
    (h : ∀ m ∈ st.messages, msg_nonempty m) :
    ∀ m ∈ (process_events_step st ev).messages, msg_nonempty m := by
  rcases process_events_step_messages_shape st ev with hs | ⟨m0, hm0, hs⟩
  · rw [hs]; exact h
  · rw [hs]
    intro m hm
    rcases List.mem_append.mp hm with h1 | h2
    · exact h m h1
    · rw [List.mem_singleton.mp h2]; exact hm0

/-- The `process_events` event loop preserves the invariant. -/
theorem process_events_foldl_nonempty (evs : List Event) (st : PState)
    (h : ∀ m ∈ st.messages, msg_nonempty m) :
    ∀ m ∈ (evs.foldl process_events_step st).messages, msg_nonempty m := by
  induction evs generalizing st with
  | nil => simpa
  | cons e rest ih => exact ih _ (process_events_step_nonempty st e h)

/-- The trailing flush preserves the invariant. -/
theorem flush_final_nonempty (st : PState)
    (h : ∀ m ∈ st.messages, msg_nonempty m) :
    ∀ m ∈ (flush_final st).messages, msg_nonempty m := by
  simp only [flush_final]
  split <;> split <;>
    first
    | simpa
    | (intro m hm
       rcases List.mem_append.mp hm with h1 | h2
       · exact h m (by simpa using h1)
       · rw [List.mem_singleton.mp h2]
         simp_all [msg_nonempty])

/-- One `process_native_events` iteration preserves the invariant. -/
theorem native_step_nonempty (st : NState) (ev : NEvent)
    (h : ∀ m ∈ st.messages, msg_nonempty m) :
    ∀ m ∈ (native_step st ev).messages, msg_nonempty m := by
  cases ev with
  | user sid c =>
      cases c with
      | str s =>
          simp only [native_step]
          split
          · rename_i hg
            intro m hm
            have hm2 : m ∈ st.messages ∨ m = ⟨"user", s, [], none⟩ := by simpa using hm
            rcases hm2 with h1 | rfl
            · exact h m h1
            · exact Or.inl (py_strip_ne_empty_of s hg)
          · simpa
      | blocks bs => simpa [native_step]
  | assistant sid bs =>
      simp only [native_step]
      split
      · rename_i hg
        intro m hm
        have hm2 : m ∈ st.messages ∨
            m = ⟨"assistant",
                  (native_asst_blocks ⟨"", [], st.pending_tool_results⟩ bs).text,
                  (native_asst_blocks ⟨"", [], st.pending_tool_results⟩ bs).tool_blocks, none⟩ := by
          simpa using hm
        rcases hm2 with h1 | rfl
        · exact h m h1
        · simpa [msg_nonempty] using hg
      · simpa
  | otherNEvent sid => simpa [native_step]

/-- The native record loop preserves the invariant. -/
theorem native_foldl_nonempty (evs : List NEvent) (st : NState)
    (h : ∀ m ∈ st.messages, msg_nonempty m) :
    ∀ m ∈ (evs.foldl native_step st).messages, msg_nonempty m := by
  induction evs generalizing st with
  | nil => simpa
  | cons e rest ih => exact ih _ (native_step_nonempty st e h)

/-- The unclaimed-result fallback preserves the invariant: it only appends
tool blocks onto an already non-empty last message. -/
theorem native_finalize_nonempty (st : NState)
    (h : ∀ m ∈ st.messages, msg_nonempty m) :
    ∀ m ∈ native_finalize st, msg_nonempty m := by
  simp only [native_finalize]
  split
  · rename_i hcond
    rcases (List.eq_nil_or_concat' st.messages) with hnil | ⟨L, b, hLb⟩
    · exact absurd hnil hcond.2
    · rw [hLb, List.getLastD_concat, List.dropLast_concat]
      split
      · intro m hm
        rcases List.mem_append.mp hm with h1 | h2
        · exact h m (by rw [hLb]; exact List.mem_append.mpr (Or.inl h1))
        · rw [List.mem_singleton.mp h2]
          have hb : msg_nonempty b := h b (by rw [hLb]; simp)
          rcases hb with hc | ht
          · exact Or.inl hc
          · refine Or.inr ?_
            simp only []
            intro hcontra
            rcases List.append_eq_nil.mp hcontra with ⟨h3, _⟩
            exact ht h3
      · rw [← hLb]; exact h
  · exact h

/-- C9 (amended): every turn emitted by `process_events` or by
`process_native_events` has non-empty text or a non-empty tool list.  (The
claim's stronger reading fails twice, see the counterexample: whitespace-only
text passes the source's truthiness guard, and the module-level live loop
appends its one final turn unconditionally, empty stream included.) -/
theorem decoder_turns_nonempty :
    (∀ (evs : List Event), ∀ m ∈ process_events evs, m.content ≠ "" ∨ m.tool_blocks ≠ [])
    ∧ (∀ (nevs : List NEvent), ∀ m ∈ process_native_events nevs,
        m.content ≠ "" ∨ m.tool_blocks ≠ []) := by
  constructor
  · intro evs m hm
    exact flush_final_nonempty _
      (process_events_foldl_nonempty evs initial_pstate (by simp [initial_pstate])) m hm
  · intro nevs m hm
    exact native_finalize_nonempty _ (native_foldl_nonempty nevs ⟨[], [], []⟩ (by simp)) m hm

/-- C9 counterexample: a whitespace-only `text_delta` followed by `result`
makes `process_events` emit a turn whose text is blank (strips to empty) with
no tool calls; and the live streaming loop's unconditional final append emits
a fully empty turn on an empty stream. -/
theorem nonempty_turn_counterexample :
    process_events [Event.streamEvent (InnerEv.contentBlockDelta (Delta.textDelta " ")),
                    Event.result "" none 0 0]
      = [⟨"assistant", " ", [], none⟩]
    ∧ py_strip " " = ""
    ∧ finalize_live initial_lstate = ⟨"assistant", "", [], none⟩ := by decide

/-- Witness for C9 at a concrete emitted turn. -/
theorem decoder_turns_nonempty_witness :
    (⟨"system", "⚠️ x", [], none⟩ : Msg) ∈ process_events [Event.error "x"]
    ∧ ((⟨"system", "⚠️ x", [], none⟩ : Msg).content ≠ ""
       ∨ (⟨"system", "⚠️ x", [], none⟩ : Msg).tool_blocks ≠ []) :=
  ⟨by decide, decoder_turns_nonempty.1 [Event.error "x"] ⟨"system", "⚠️ x", [], none⟩ (by decide)⟩

/-- One `process_events` iteration is a congruence for the buffer-and-output
fields: states agreeing on messages, text buffer, tool buffer and pending
tool keep agreeing after any event (the remaining fields are the ambient
session bookkeeping, which the emitted messages never read). -/
theorem process_events_step_congr (st st' : PState) (ev : Event)
    (h1 : st.messages = st'.messages) (h2 : st.current_text = st'.current_text)
    (h3 : st.current_tools = st'.current_tools) (h4 : st.pending_tool = st'.pending_tool) :
    (process_events_step st ev).messages = (process_events_step st' ev).messages
    ∧ (process_events_step st ev).current_text = (process_events_step st' ev).current_text
    ∧ (process_events_step st ev).current_tools = (process_events_step st' ev).current_tools
    ∧ (process_events_step st ev).pending_tool = (process_events_step st' ev).pending_tool := by
  obtain ⟨m, t, tl, p, s1, i1⟩ := st
  obtain ⟨m', t', tl', p', s2, i2⟩ := st'
  simp only at h1 h2 h3 h4
  subst h1 h2 h3 h4
  cases ev with
  | system sub sid =>
      simp only [process_events_step]
      split <;> simp
  | assistant bs => simp [process_events_step]
  | user bs => simp [process_events_step]
  | streamEvent inner =>
      cases inner with
      | contentBlockStart cb =>
          cases cb <;> simp [process_events_step, stream_inner_step]
      | contentBlockDelta d =>
          cases d <;> simp only [process_events_step, stream_inner_step] <;>
            first
            | simp
            | (split <;> simp)
      | otherInner => simp [process_events_step, stream_inner_step]
  | result sid cost it ot =>
      simp only [process_events_step]
      repeat' split
      all_goals simp_all
  | error t0 => simp only [process_events_step]; split <;> simp
  | stderr t0 => simp only [process_events_step]; split <;> simp
  | done =>
      simp only [process_events_step]
      repeat' split
      all_goals simp_all
  | otherEvent => simp [process_events_step]

/-- The event loop of `process_events` is a congruence for the
buffer-and-output fields. -/
theorem process_events_foldl_congr (evs : List Event) (st st' : PState)
    (h1 : st.messages = st'.messages) (h2 : st.current_text = st'.current_text)
    (h3 : st.current_tools = st'.current_tools) (h4 : st.pending_tool = st'.pending_tool) :
    (evs.foldl process_events_step st).messages = (evs.foldl process_events_step st').messages
    ∧ (evs.foldl process_events_step st).current_text = (evs.foldl process_events_step st').current_text
    ∧ (evs.foldl process_events_step st).current_tools = (evs.foldl process_events_step st').current_tools
    ∧ (evs.foldl process_events_step st).pending_tool = (evs.foldl process_events_step st').pending_tool := by
  induction evs generalizing st st' with
  | nil => exact ⟨h1, h2, h3, h4⟩
  | cons e rest ih =>
      have hstep := process_events_step_congr st st' e h1 h2 h3 h4
      exact ih _ _ hstep.1 hstep.2.1 hstep.2.2.1 hstep.2.2.2

/-- The trailing flush is a congruence for the output messages. -/
theorem flush_final_congr (st st' : PState)
    (h1 : st.messages = st'.messages) (h2 : st.current_text = st'.current_text)
    (h3 : st.current_tools = st'.current_tools) (h4 : st.pending_tool = st'.pending_tool) :
    (flush_final st).messages = (flush_final st').messages := by
  obtain ⟨m, t, tl, p, s1, i1⟩ := st
  obtain ⟨m', t', tl', p', s2, i2⟩ := st'
  simp only at h1 h2 h3 h4
  subst h1 h2 h3 h4
  simp only [flush_final]
  repeat' split
  all_goals simp_all

/-- Processing a `result` event from a state with empty buffers and no
pending tool changes none of the buffer-and-output fields (only the session
bookkeeping). -/
theorem empty_result_step_fields (st : PState) (sid : String) (c : Option ℚ) (it ot : Nat)
    (h1 : st.current_text = "") (h2 : st.current_tools = []) (h3 : st.pending_tool = none) :
    (process_events_step st (Event.result sid c it ot)).messages = st.messages
    ∧ (process_events_step st (Event.result sid c it ot)).current_text = st.current_text
    ∧ (process_events_step st (Event.result sid c it ot)).current_tools = st.current_tools
    ∧ (process_events_step st (Event.result sid c it ot)).pending_tool = st.pending_tool := by
  simp only [process_events_step]
  repeat' split
  all_goals simp_all

/-- C10: a `result` event processed while the text buffer is empty, the tool
list is empty and no tool is pending emits no turn, and its computed
cost/usage summary is discarded: the final message list of the whole decode
is the same as if the event had not occurred, for every continuation of the
event list — so the summary is never attached to any later turn. -/
theorem empty_result_discarded (st : PState) (sid : String) (c : Option ℚ) (it ot : Nat)
    (rest : List Event)
    (h1 : st.current_text = "") (h2 : st.current_tools = []) (h3 : st.pending_tool = none) :
    (process_events_step st (Event.result sid c it ot)).messages = st.messages
    ∧ (flush_final ((Event.result sid c it ot :: rest).foldl process_events_step st)).messages
        = (flush_final (rest.foldl process_events_step st)).messages := by
  have hf := empty_result_step_fields st sid c it ot h1 h2 h3
  refine ⟨hf.1, ?_⟩
  rw [List.foldl_cons]
  have hfold := process_events_foldl_congr rest _ _ hf.1 hf.2.1 hf.2.2.1 hf.2.2.2
  exact flush_final_congr _ _ hfold.1 hfold.2.1 hfold.2.2.1 hfold.2.2.2

/-- Witness for C10: a `result` carrying a session id and token counts,
dropped from the initial state, followed by further text. -/
theorem empty_result_discarded_witness :
    initial_pstate.current_text = "" ∧ initial_pstate.current_tools = []
    ∧ initial_pstate.pending_tool = none
    ∧ (process_events_step initial_pstate (Event.result "s" none 3 0)).messages
        = initial_pstate.messages
    ∧ (flush_final ((Event.result "s" none 3 0
            :: [Event.streamEvent (InnerEv.contentBlockDelta (Delta.textDelta "x"))]).foldl
          process_events_step initial_pstate)).messages
        = (flush_final ([Event.streamEvent (InnerEv.contentBlockDelta (Delta.textDelta "x"))].foldl
          process_events_step initial_pstate)).messages := by
  have h := empty_result_discarded initial_pstate "s" none 3 0
    [Event.streamEvent (InnerEv.contentBlockDelta (Delta.textDelta "x"))] rfl rfl rfl
  exact ⟨rfl, rfl, rfl, h.1, h.2⟩

/-- Plain lookup in the dict model (`""` when absent). -/
def mfind (m : List (String × String)) (k : String) : String :=
  match m with
  | [] => ""
  | (k0, v) :: rest => if k0 = k then v else mfind rest k

/-- The value component of `pop` is the lookup. -/
theorem dict_pop_fst (m : List (String × String)) (k : String) :
    (dict_pop m k).1 = mfind m k := by
  induction m with
  | nil => rfl
  | cons p rest ih =>
      obtain ⟨k1, v1⟩ := p
      simp only [dict_pop, mfind]
      split <;> simp [ih]

/-- Looking up the key just assigned yields the assigned value. -/
theorem mfind_insert_self (m : List (String × String)) (k v : String) :
    mfind (dict_insert m k v) k = v := by
  induction m with
  | nil => simp [dict_insert, mfind]
  | cons p rest ih =>
      obtain ⟨k1, v1⟩ := p
      simp only [dict_insert]
      split
      · rename_i h1
        simp [mfind, h1]
      · rename_i h1
        simp only [mfind]
        split
        · rename_i h2
          exact absurd h2 h1
        · exact ih

/-- Assigning a different key does not change a lookup. -/
theorem mfind_insert_ne (m : List (String × String)) (k0 k v : String) (h : k0 ≠ k) :
    mfind (dict_insert m k0 v) k = mfind m k := by
  induction m with
  | nil => simp [dict_insert, mfind, h]
  | cons p rest ih =>
      obtain ⟨k1, v1⟩ := p
      simp only [dict_insert]
      split
      · rename_i h1
        simp only [mfind]
        rw [h1, if_neg h, if_neg h]
      · rename_i h1
        simp only [mfind]
        split
        · rfl
        · exact ih

/-- Popping a different key does not change a lookup. -/
theorem mfind_pop_ne (m : List (String × String)) (k0 k : String) (h : k0 ≠ k) :
    mfind (dict_pop m k0).2 k = mfind m k := by
  induction m with
  | nil => simp [dict_pop, mfind]
  | cons p rest ih =>
      obtain ⟨k1, v1⟩ := p
      simp only [dict_pop]
      split
      · rename_i h1
        simp only [mfind]
        split
        · rename_i h2
          rw [h1] at h2
          exact absurd h2 h
        · rfl
      · rename_i h1
        simp only [mfind]
        split
        · rfl
        · exact ih

/-- Does a native block store a result under id `k`? -/
def nblock_result_id (k : String) : NBlock → Bool
  | NBlock.toolResult tid _ => tid == k
  | _ => false

/-- Does a native block claim (pop) the result of id `k`? -/
def nblock_use_id (k : String) : NBlock → Bool
  | NBlock.toolUse _ tid _ => tid == k
  | _ => false

/-- Does a native record read or write the id→result entry of `k`? -/
def nevent_touches_id (k : String) : NEvent → Bool
  | NEvent.user _ (NContent.blocks bs) => bs.any (nblock_result_id k)
  | NEvent.assistant _ bs => bs.any (nblock_use_id k)
  | _ => false

/-- Storing results for other ids preserves the entry of `k`. -/
theorem native_user_blocks_untouched (k : String) (bs : List NBlock)
    (m : List (String × String)) (h : ∀ b ∈ bs, nblock_result_id k b = false) :
    mfind (native_user_blocks m bs) k = mfind m k := by
  induction bs generalizing m with
  | nil => rfl
  | cons b rest ih =>
      have hb := h b (by simp)
      have hrest : ∀ b ∈ rest, nblock_result_id k b = false := fun b hb2 => h b (by simp [hb2])
      cases b with
      | toolResult tid rc =>
          have htid : tid ≠ k := by simpa [nblock_result_id] using hb
          exact (ih (dict_insert m tid (resolve_result_content rc)) hrest).trans
            (mfind_insert_ne m tid k _ htid)
      | text t => exact ih m hrest
      | toolUse nm tid inp => exact ih m hrest
      | otherNBlock => exact ih m hrest

/-- Claiming results for other ids preserves the entry of `k`. -/
theorem native_asst_blocks_untouched (k : String) (bs : List NBlock) (acc : AsstAcc)
    (h : ∀ b ∈ bs, nblock_use_id k b = false) :
    mfind (native_asst_blocks acc bs).results k = mfind acc.results k := by
  induction bs generalizing acc with
  | nil => rfl
  | cons b rest ih =>
      have hb := h b (by simp)
      have hrest : ∀ b ∈ rest, nblock_use_id k b = false := fun b hb2 => h b (by simp [hb2])
      cases b with
      | toolUse nm tid inp =>
          have htid : tid ≠ k := by simpa [nblock_use_id] using hb
          exact (ih (⟨acc.text,
              acc.tool_blocks ++ [⟨nm.getD "tool", tid, inp, (dict_pop acc.results tid).1⟩],
              (dict_pop acc.results tid).2⟩ : AsstAcc) hrest).trans
            (mfind_pop_ne acc.results tid k htid)
      | text t => exact ih _ hrest
      | toolResult tid rc => exact ih _ hrest
      | otherNBlock => exact ih _ hrest

/-- A record not touching id `k` preserves the entry of `k`. -/
theorem native_step_untouched (k : String) (st : NState) (ev : NEvent)
    (h : nevent_touches_id k ev = false) :
    mfind (native_step st ev).pending_tool_results k = mfind st.pending_tool_results k := by
  cases ev with
  | user sid c =>
      cases c with
      | str s =>
          simp only [native_step]
          split <;> rfl
      | blocks bs =>
          have hbs : ∀ b ∈ bs, nblock_result_id k b = false := by
            simpa [nevent_touches_id, List.any_eq_false] using h
          simpa [native_step] using native_user_blocks_untouched k bs st.pending_tool_results hbs
  | assistant sid bs =>
      have hbs : ∀ b ∈ bs, nblock_use_id k b = false := by
        simpa [nevent_touches_id, List.any_eq_false] using h
      simp only [native_step]
      split <;>
        simpa using native_asst_blocks_untouched k bs ⟨"", [], st.pending_tool_results⟩ hbs
  | otherNEvent sid => rfl

/-- A record list not touching id `k` preserves the entry of `k`. -/
theorem native_foldl_untouched (k : String) (mid : List NEvent) (st : NState)
    (h : ∀ ev ∈ mid, nevent_touches_id k ev = false) :
    mfind ((mid.foldl native_step st).pending_tool_results) k
      = mfind st.pending_tool_results k := by
  induction mid generalizing st with
  | nil => rfl
  | cons e rest ih =>
      have he := h e (by simp)
      have hrest : ∀ ev ∈ rest, nevent_touches_id k ev = false := fun ev hev => h ev (by simp [hev])
      exact (ih (native_step st e) hrest).trans (native_step_untouched k st e he)

/-- The result-before-use direction of replay correlation: a `tool_result`
stored under id `k`, followed by arbitrarily many records that do not touch
`k`, is attached to the `tool_use` with id `k` of a later assistant
record. -/
theorem native_result_before_use (su sa k r inp : String) (nm : Option String)
    (mid : List NEvent)
    (hmid : ∀ ev ∈ mid, nevent_touches_id k ev = false) :
    ((process_native_events
        (NEvent.user su (NContent.blocks [NBlock.toolResult k (RContent.str r)])
          :: (mid ++ [NEvent.assistant sa [NBlock.toolUse nm k inp]]))).getLast?.bind
      (fun m => m.tool_blocks.head?))
      = some ⟨nm.getD "tool", k, inp, r⟩ := by
  set u := NEvent.user su (NContent.blocks [NBlock.toolResult k (RContent.str r)])
  set a := NEvent.assistant sa [NBlock.toolUse nm k inp]
  set st1 := native_step ⟨[], [], []⟩ u with hst1
  set st2 := mid.foldl native_step st1 with hst2
  have hfold : (u :: (mid ++ [a])).foldl native_step ⟨[], [], []⟩ = native_step st2 a := by
    rw [List.foldl_cons, ← hst1, List.foldl_append, ← hst2, List.foldl_cons, List.foldl_nil]
  have hmap1 : st1.pending_tool_results = [(k, r)] := by
    simp [hst1, native_step, native_user_blocks, dict_insert, resolve_result_content]
  have hmget2 : mfind st2.pending_tool_results k = r := by
    rw [hst2, native_foldl_untouched k mid st1 hmid, hmap1]
    simp [mfind]
  have hpop1 : (dict_pop st2.pending_tool_results k).1 = r := by
    rw [dict_pop_fst]; exact hmget2
  have ha : native_asst_blocks ⟨"", [], st2.pending_tool_results⟩ [NBlock.toolUse nm k inp]
      = ⟨"", [⟨nm.getD "tool", k, inp, r⟩], (dict_pop st2.pending_tool_results k).2⟩ := by
    simp [native_asst_blocks, hpop1]
  have hstep : native_step st2 a
      = ⟨st2.messages ++ [⟨"assistant", "", [⟨nm.getD "tool", k, inp, r⟩], none⟩],
         (dict_pop st2.pending_tool_results k).2,
         add_session sa st2.sessions⟩ := by
    simp only [native_step, ha]
    split
    · rfl
    · rename_i hg
      exact absurd (by simp) (fun hx => hg (Or.inr hx))
  rw [process_native_events, hfold, hstep]
  simp only [native_finalize]
  split
  · rename_i hcond
    rw [List.getLastD_concat]
    split
    · rw [List.dropLast_concat]
      rw [List.getLast?_concat]
      simp
    · rename_i hrole
      exact absurd rfl hrole
  · rw [List.getLast?_concat]
    simp

/-- C6 counterexample: a `tool_use` with id `K` followed (later) by its
`tool_result` does NOT get the result attached — the pop happens when the
`tool_use` is processed, before the result has been stored, so the call's
result is `""` and the result surfaces only as a separate synthesized
trailing block. -/
theorem replay_use_before_result_counterexample :
    process_native_events
      [NEvent.assistant "" [NBlock.toolUse (some "Read") "K" "\x7b\x7d"],
       NEvent.user "" (NContent.blocks [NBlock.toolResult "K" (RContent.str "ok")])]
      = [⟨"assistant", "", [⟨"Read", "K", "\x7b\x7d", ""⟩, ⟨"tool", "K", "", "ok"⟩], none⟩]
    ∧ (⟨"Read", "K", "\x7b\x7d", ""⟩ : ToolBlock).result ≠ "ok" := by decide

/-- C6 (amended): replay correlation by id works in the result-before-use
direction: a `tool_result` with `tool_use_id` `k` that precedes (with
arbitrarily many intervening records not bearing id `k`) an assistant
`tool_use` with id `k` is attached to that tool call; the result is stored
in the id→result dict, removed when claimed (a second `tool_use` with the
same id gets `""`), and a `tool_use` whose result has not been stored
earlier gets the empty string. -/
theorem replay_id_correlation :
    (∀ (su sa k r inp : String) (nm : Option String) (mid : List NEvent),
       (∀ ev ∈ mid, nevent_touches_id k ev = false) →
       ((process_native_events
           (NEvent.user su (NContent.blocks [NBlock.toolResult k (RContent.str r)])
             :: (mid ++ [NEvent.assistant sa [NBlock.toolUse nm k inp]]))).getLast?.bind
         (fun m => m.tool_blocks.head?))
         = some ⟨nm.getD "tool", k, inp, r⟩)
    ∧ process_native_events
        [NEvent.user "" (NContent.blocks [NBlock.toolResult "K" (RContent.str "ok")]),
         NEvent.assistant "" [NBlock.toolUse (some "A") "K" "i"],
         NEvent.assistant "" [NBlock.toolUse (some "B") "K" "j"]]
        = [⟨"assistant", "", [⟨"A", "K", "i", "ok"⟩], none⟩,
           ⟨"assistant", "", [⟨"B", "K", "j", ""⟩], none⟩] :=
  ⟨native_result_before_use, by decide⟩

/-- Witness for C6: a stored result for id `K` survives an ignored record, a
plain user message and an unrelated tool use before being claimed. -/
theorem replay_id_correlation_witness :
    (∀ ev ∈ [NEvent.otherNEvent "s1",
             NEvent.user "" (NContent.str "hello"),
             NEvent.assistant "" [NBlock.toolUse (some "Grep") "J" "q"]],
       nevent_touches_id "K" ev = false)
    ∧ ((process_native_events
          (NEvent.user "" (NContent.blocks [NBlock.toolResult "K" (RContent.str "ok")])
            :: ([NEvent.otherNEvent "s1",
                 NEvent.user "" (NContent.str "hello"),
                 NEvent.assistant "" [NBlock.toolUse (some "Grep") "J" "q"]]
                ++ [NEvent.assistant "" [NBlock.toolUse (some "Read") "K" "i"]]))).getLast?.bind
        (fun m => m.tool_blocks.head?))
        = some ⟨"Read", "K", "i", "ok"⟩ :=
  ⟨by decide,
   replay_id_correlation.1 "" "" "K" "ok" "i" (some "Read")
     [NEvent.otherNEvent "s1",
      NEvent.user "" (NContent.str "hello"),
      NEvent.assistant "" [NBlock.toolUse (some "Grep") "J" "q"]]
     (by decide)⟩

/-- `done` events do not change the loop accumulator (they only affect the
loop control, modelled in `drain_batch`). -/
theorem live_step_done (st : LState) : live_step st Event.done = st := rfl

/-- Draining a sentinel-free queue: the processed events are a prefix of the
queued raw events (all of them unless a `done` event stopped the batch), and
the new accumulator is the fold of the processed events. -/
theorem drain_batch_no_sentinel (raw : List Event) (st : LState) :
    (drain_batch st (raw.map QItem.ev)).1
        = (drain_batch st (raw.map QItem.ev)).2.1.foldl live_step st
    ∧ ∃ rem, raw = (drain_batch st (raw.map QItem.ev)).2.1 ++ rem
        ∧ ((drain_batch st (raw.map QItem.ev)).2.2 = false → rem = []) := by
  induction raw generalizing st with
  | nil => exact ⟨rfl, [], rfl, fun _ => rfl⟩
  | cons e rest ih =>
      simp only [List.map_cons, drain_batch]
      split
      · rename_i hdone
        subst hdone
        exact ⟨rfl, rest, rfl, fun h => Bool.noConfusion h⟩
      · obtain ⟨h1, rem, h2, h3⟩ := ih (live_step st e)
        exact ⟨h1, rem, congrArg (List.cons e) h2, h3⟩

/-- Draining a queue ending in the sentinel always sets the done flag, and
processes a prefix of the queued raw events. -/
theorem drain_batch_sentinel (raw : List Event) (st : LState) :
    (drain_batch st (raw.map QItem.ev ++ [QItem.sentinel])).1
        = (drain_batch st (raw.map QItem.ev ++ [QItem.sentinel])).2.1.foldl live_step st
    ∧ (drain_batch st (raw.map QItem.ev ++ [QItem.sentinel])).2.2 = true
    ∧ ∃ rem, raw = (drain_batch st (raw.map QItem.ev ++ [QItem.sentinel])).2.1 ++ rem := by
  induction raw generalizing st with
  | nil => exact ⟨rfl, rfl, [], rfl⟩
  | cons e rest ih =>
      simp only [List.map_cons, List.cons_append, drain_batch]
      split
      · rename_i hdone
        subst hdone
        exact ⟨rfl, rfl, rest, rfl⟩
      · obtain ⟨h1, h2, rem, h3⟩ := ih (live_step st e)
        exact ⟨h1, h2, rem, congrArg (List.cons e) h3⟩

/-- Invariant of the producer/consumer system: the consumer's accumulator is
the fold of the events it has consumed; once the loop has exited the consumed
events are a prefix of the stream; while it runs, the stream decomposes as
consumed events, then the raw events in the FIFO queue (with the sentinel,
only ever last, present once the worker finished), then the unproduced
events. -/
def sys_inv (es : List Event) (s : Sys) : Prop :=
  s.lstate = s.consumed.foldl live_step initial_lstate
  ∧ (s.loopDone = true → ∃ t, es = s.consumed ++ t)
  ∧ (s.loopDone = false →
      ∃ raw, (s.queue = raw.map QItem.ev
              ∨ (s.workerDone = true ∧ s.queue = raw.map QItem.ev ++ [QItem.sentinel]))
        ∧ es = s.consumed ++ raw ++ s.pending)

/-- Every interleaving step preserves the system invariant. -/
theorem sys_inv_step (es : List Event) (s : Sys) (a : Act) (h : sys_inv es s) :
    sys_inv es (sys_step s a) := by
  obtain ⟨hl, h2, h3⟩ := h
  cases a with
  | setCancel => exact ⟨hl, h2, h3⟩
  | produce =>
      simp only [sys_step]
      split
      · exact ⟨hl, h2, h3⟩
      · rename_i hwd
        split
        · rename_i hpend
          refine ⟨hl, h2, ?_⟩
          intro hld
          obtain ⟨raw, hqe, hes⟩ := h3 hld
          rcases hqe with hq | ⟨hwd2, hq⟩
          · exact ⟨raw, Or.inr ⟨rfl, by simp [hq]⟩, by simpa [hpend] using hes⟩
          · exact absurd hwd2 hwd
        · rename_i e rest hpend
          split
          · refine ⟨hl, h2, ?_⟩
            intro hld
            obtain ⟨raw, hqe, hes⟩ := h3 hld
            rcases hqe with hq | ⟨hwd2, hq⟩
            · exact ⟨raw, Or.inr ⟨rfl, by simp [hq]⟩, by simpa [hpend] using hes⟩
            · exact absurd hwd2 hwd
          · refine ⟨hl, h2, ?_⟩
            intro hld
            obtain ⟨raw, hqe, hes⟩ := h3 hld
            rcases hqe with hq | ⟨hwd2, hq⟩
            · refine ⟨raw ++ [e], Or.inl (by simp [hq]), ?_⟩
              rw [hes, hpend]
              simp
            · exact absurd hwd2 hwd
  | consume =>
      simp only [sys_step]
      split
      · exact ⟨hl, h2, h3⟩
      · rename_i hld0
        have hld : s.loopDone = false := by
          cases hh : s.loopDone
          · rfl
          · exact absurd hh hld0
        split
        · refine ⟨hl, ?_, ?_⟩
          · intro _
            obtain ⟨raw, hqe, hes⟩ := h3 hld
            exact ⟨raw ++ s.pending, by simpa using hes⟩
          · intro hcontra
            exact Bool.noConfusion hcontra
        · obtain ⟨raw, hqe, hes⟩ := h3 hld
          rcases hqe with hq | ⟨hwd, hq⟩
          · obtain ⟨hd1, rem, hd2, hd3⟩ := drain_batch_no_sentinel raw s.lstate
            rw [← hq] at hd1 hd2 hd3
            refine ⟨?_, ?_, ?_⟩
            · show (drain_batch s.lstate s.queue).1
                = (s.consumed ++ (drain_batch s.lstate s.queue).2.1).foldl live_step initial_lstate
              rw [List.foldl_append, ← hl, hd1]
            · intro _
              refine ⟨rem ++ s.pending, ?_⟩
              show es = s.consumed ++ (drain_batch s.lstate s.queue).2.1 ++ (rem ++ s.pending)
              rw [hes, hd2]
              simp
            · intro hdone2
              have hrem : rem = [] := hd3 hdone2
              subst hrem
              refine ⟨[], Or.inl rfl, ?_⟩
              show es = s.consumed ++ (drain_batch s.lstate s.queue).2.1 ++ [] ++ s.pending
              rw [hes, hd2]
              simp
          · obtain ⟨hd1, hdone, rem, hd2⟩ := drain_batch_sentinel raw s.lstate
            rw [← hq] at hd1 hdone hd2
            refine ⟨?_, ?_, ?_⟩
            · show (drain_batch s.lstate s.queue).1
                = (s.consumed ++ (drain_batch s.lstate s.queue).2.1).foldl live_step initial_lstate
              rw [List.foldl_append, ← hl, hd1]
            · intro _
              refine ⟨rem ++ s.pending, ?_⟩
              show es = s.consumed ++ (drain_batch s.lstate s.queue).2.1 ++ (rem ++ s.pending)
              rw [hes, hd2]
              simp
            · intro hcontra
              rw [hdone] at hcontra
              exact Bool.noConfusion hcontra

/-- The invariant holds along every interleaving. -/
theorem sys_run_inv (es : List Event) (acts : List Act) : sys_inv es (sys_run es acts) := by
  have hinit : sys_inv es (sys_init es) := by
    refine ⟨rfl, ?_, ?_⟩
    · intro hcontra
      exact Bool.noConfusion hcontra
    · intro _
      exact ⟨[], Or.inl rfl, rfl⟩
  have hgen : ∀ (l : List Act) (s : Sys), sys_inv es s → sys_inv es (l.foldl sys_step s) := by
    intro l
    induction l with
    | nil => intro s hs; exact hs
    | cons a rest ih => intro s hs; exact ih _ (sys_inv_step es s a hs)
  exact hgen acts _ hinit

/-- C3 (amended): along every interleaving of producer, consumer and
cancellation steps, the consumer's accumulator — and hence the final turn the
loop appends — is exactly the fold of the events it actually drained and
processed, which form a prefix of the stream; and once the cancellation flag
is set, the consumer's very next polling iteration exits the loop without
consuming or decoding anything further.  (rather than the claim's stronger
reading: events already placed on the queue but not yet drained when
cancellation is observed are discarded, see the counterexample.) -/
theorem cancellation_consumed_events (es : List Event) (acts : List Act) :
    ((sys_run es acts).lstate = (sys_run es acts).consumed.foldl live_step initial_lstate
     ∧ finalize_live (sys_run es acts).lstate
         = finalize_live ((sys_run es acts).consumed.foldl live_step initial_lstate)
     ∧ ∃ t, es = (sys_run es acts).consumed ++ t)
    ∧ ((sys_run es acts).cancel = true → (sys_run es acts).loopDone = false →
        (sys_step (sys_run es acts) Act.consume).loopDone = true
        ∧ (sys_step (sys_run es acts) Act.consume).consumed = (sys_run es acts).consumed
        ∧ (sys_step (sys_run es acts) Act.consume).lstate = (sys_run es acts).lstate) := by
  obtain ⟨hl, h2, h3⟩ := sys_run_inv es acts
  constructor
  · refine ⟨hl, by rw [hl], ?_⟩
    cases hld : (sys_run es acts).loopDone
    · obtain ⟨raw, _, hes⟩ := h3 hld
      exact ⟨raw ++ (sys_run es acts).pending, by simpa using hes⟩
    · exact h2 hld
  · intro hc hld
    simp [sys_step, hld, hc]

/-- C3 counterexample: an event placed on the queue before the consumer
observes cancellation is lost.  After `produce` the queue holds the text
event; `setCancel` then `consume` exits the loop having consumed nothing, and
the final turn is empty — while decoding the queued event would have
produced the text `"hi"`. -/
theorem cancellation_queued_event_lost :
    (sys_run [Event.streamEvent (InnerEv.contentBlockDelta (Delta.textDelta "hi"))]
        [Act.produce, Act.setCancel]).queue
      = [QItem.ev (Event.streamEvent (InnerEv.contentBlockDelta (Delta.textDelta "hi")))]
    ∧ (sys_run [Event.streamEvent (InnerEv.contentBlockDelta (Delta.textDelta "hi"))]
        [Act.produce, Act.setCancel]).cancel = true
    ∧ (sys_run [Event.streamEvent (InnerEv.contentBlockDelta (Delta.textDelta "hi"))]
        [Act.produce, Act.setCancel, Act.consume]).loopDone = true
    ∧ (sys_run [Event.streamEvent (InnerEv.contentBlockDelta (Delta.textDelta "hi"))]
        [Act.produce, Act.setCancel, Act.consume]).consumed = []
    ∧ finalize_live (sys_run [Event.streamEvent (InnerEv.contentBlockDelta (Delta.textDelta "hi"))]
        [Act.produce, Act.setCancel, Act.consume]).lstate
      = ⟨"assistant", "", [], none⟩
    ∧ finalize_live (live_step initial_lstate
        (Event.streamEvent (InnerEv.contentBlockDelta (Delta.textDelta "hi"))))
      ≠ ⟨"assistant", "", [], none⟩ := by decide

/-- Witness for C3 at a concrete interleaving in which the flag is set while
the loop is still running. -/
theorem cancellation_consumed_events_witness :
    ((sys_run [Event.done] [Act.produce, Act.setCancel]).cancel = true
     ∧ (sys_run [Event.done] [Act.produce, Act.setCancel]).loopDone = false)
    ∧ ((sys_run [Event.done] [Act.produce, Act.setCancel]).lstate
        = (sys_run [Event.done] [Act.produce, Act.setCancel]).consumed.foldl live_step initial_lstate)
    ∧ ((sys_step (sys_run [Event.done] [Act.produce, Act.setCancel]) Act.consume).loopDone = true
       ∧ (sys_step (sys_run [Event.done] [Act.produce, Act.setCancel]) Act.consume).consumed
          = (sys_run [Event.done] [Act.produce, Act.setCancel]).consumed
       ∧ (sys_step (sys_run [Event.done] [Act.produce, Act.setCancel]) Act.consume).lstate
          = (sys_run [Event.done] [Act.produce, Act.setCancel]).lstate) :=
  ⟨⟨by decide, by decide⟩,
   (cancellation_consumed_events [Event.done] [Act.produce, Act.setCancel]).1.1,
   (cancellation_consumed_events [Event.done] [Act.produce, Act.setCancel]).2 (by decide) (by decide)⟩
